import Mathlib

/-!
Shallow embedding of the holidays-jp core holiday engine (Go package
`holiday`, file with `findHoliday`, `findHolidaysInMonth`,
`findHolidaysInYear`, `calcHolidaysInMonthWithoutInLieu`,
`calcHolidaysInMonth`, `calcHolidaysInYear`, `vernalEquinoxDay` and
`autumnalEquinoxDay`).

Modelling decisions, each forced by the shape of the Go code:

* Go date strings are embedded as their byte sequences (`List ℕ`) and are
  compared exactly as Go compares strings: lexicographically byte by byte
  (`strLt`, `strLe`).
* Functions that in Go recurse on a non-structural measure (`sort.Search`,
  decimal digit emission, the equinox day scans) are embedded with an
  explicit fuel argument that provably suffices, keeping every definition
  structural and kernel-executable.
* The solar-longitude computation `sunLongitude ∘ time2JulianYear` works on
  IEEE-754 `float64` values (`math.Sin`, `math.Mod`); those operations are
  not kernel-evaluable, so the two equinox scanners are parametrised by the
  per-day longitude value they inspect, and everything downstream of them
  (the calculator) is parametrised by the two resulting day functions.
* The data tables that live in generated or data files outside `src/`
  (the static table `holidays`, `specialHolidays`, `annuallyHolidaysRules`)
  appear as parameters of the embedded functions; the concrete sample
  values below carry a `Modelled from the spec:` comment.
* `sort.Sort` is an unstable comparison sort; it is embedded as
  `List.insertionSort` over the same comparison.  Every property proved
  below about the sorted output (sortedness, membership, multiset of
  elements, duplicate dates) is invariant under the choice of a correct
  comparison sort.
-/

/-- Byte-wise lexicographic strict comparison of Go strings, embedded as
byte lists.  Mirrors the builtin `<` of Go on strings. -/
def strLt : List ℕ → List ℕ → Bool
  | _, [] => false
  | [], _ :: _ => true
  | a :: as, b :: bs => if a < b then true else if a = b then strLt as bs else false

/-- Go `s1 <= s2` on strings: the negation of `strLt s2 s1`. -/
def strLe (x y : List ℕ) : Bool := ! strLt y x

/-- Go `strings.HasPrefix s pre`. -/
def hasPre : List ℕ → List ℕ → Bool
  | _, [] => true
  | [], _ :: _ => false
  | a :: as, b :: bs => a == b && hasPre as bs

/-- ASCII digits of a natural number, most significant first, with an
explicit recursion fuel (`fuel ≥ n` always suffices).  Mirrors the digit
emission of the Go `fmt` verb `%d`. -/
def natDigitsAux : ℕ → ℕ → List ℕ
  | 0, n => [48 + n % 10]
  | fuel + 1, n => if n < 10 then [48 + n] else natDigitsAux fuel (n / 10) ++ [48 + n % 10]

/-- ASCII digits of a natural number, most significant first. -/
def natDigits (n : ℕ) : List ℕ := natDigitsAux n n

/-- Go `%0*d` of a non-negative value: digits left-padded with ASCII zeros
to the requested width. -/
def padN (w n : ℕ) : List ℕ := List.replicate (w - (natDigits n).length) 48 ++ natDigits n

/-- Go `%0*d` on `int`: for a negative value the minus sign is emitted
first and counts toward the width. -/
def padI (w : ℕ) (n : ℤ) : List ℕ :=
  if n < 0 then 45 :: padN (w - 1) n.natAbs else padN w n.toNat

/-- Go `fmt.Sprintf` of a date with verb `%04d-%02d-%02d`, on natural
fields (45 is the ASCII hyphen). -/
def fmtN (y m d : ℕ) : List ℕ := padN 4 y ++ 45 :: (padN 2 m ++ 45 :: padN 2 d)

/-- Go `fmt.Sprintf` of a date with verb `%04d-%02d-%02d` on `int` fields,
as `findHoliday` formats its arguments. -/
def fmtI (y m d : ℤ) : List ℕ := padI 4 y ++ 45 :: (padI 2 m ++ 45 :: padI 2 d)

/-- Month-day byte string `MM-DD`, as the fields `staticHolyday.Date`
store it. -/
def mmdd (m d : ℕ) : List ℕ := padN 2 m ++ 45 :: padN 2 d

/-- Go struct `Holiday`: a date string (embedded as bytes) and a name. -/
structure Holiday where
  Date : List ℕ
  Name : String
deriving DecidableEq

/-- Zero value `Holiday` of Go, returned by `findHoliday` on a miss. -/
def emptyHoliday : Holiday := ⟨[], ""⟩

/-- Comparison used by the `withDate` sort interface and the binary
searches: Go `s[i].Date < s[j].Date`, here in its reflexive form. -/
def dateLE (a b : Holiday) : Prop := strLe a.Date b.Date = true

instance : DecidableRel dateLE := fun a b => instDecidableEqBool (strLe a.Date b.Date) true

/-- Strict form of `dateLE`. -/
def dateLt (a b : Holiday) : Prop := strLt a.Date b.Date = true

instance : DecidableRel dateLt := fun a b => instDecidableEqBool (strLt a.Date b.Date) true

/-- Binary search loop of Go `sort.Search`, with fuel; `j - i` halves every
iteration, so fuel `n ≥ j - i` always suffices. -/
def searchLoop (f : ℕ → Bool) : ℕ → ℕ → ℕ → ℕ
  | 0, i, _ => i
  | fuel + 1, i, j =>
    if i < j then
      if f ((i + j) / 2) then searchLoop f fuel i ((i + j) / 2)
      else searchLoop f fuel ((i + j) / 2 + 1) j
    else i

/-- Go `sort.Search(n, f)`: the smallest index in `[0, n)` at which `f`
holds, assuming `f` monotone, else `n`. -/
def goSearch (n : ℕ) (f : ℕ → Bool) : ℕ := searchLoop f n 0 n

/-- Go `findHoliday`: format the date, binary-search the static table for
the first entry with `Date >= date`, and report an exact match.  The static
table itself lives in a generated file outside `src/`, so it is a
parameter here. -/
def findHoliday (table : List Holiday) (year month day : ℤ) : Holiday × Bool :=
  let date := fmtI year month day
  let idx := goSearch table.length fun i => strLe date ((table.getD i emptyHoliday).Date)
  if idx < table.length ∧ (table.getD idx emptyHoliday).Date = date then
    (table.getD idx emptyHoliday, true)
  else (emptyHoliday, false)

/-- Go slice expression `l[i:j]`. -/
def listSlice (l : List Holiday) (i j : ℕ) : List Holiday := (l.drop i).take (j - i)

/-- Go `findHolidaysInMonth`: binary-search the start bound
`"%04d-%02d-01"` and the sentinel end bound `"%04d-%02d-99"` and return the
slice in between. -/
def findHolidaysInMonth (table : List Holiday) (year month : ℕ) : List Holiday :=
  let startDate := fmtN year month 1
  let endDate := fmtN year month 99
  let start := goSearch table.length fun i => strLe startDate ((table.getD i emptyHoliday).Date)
  let stop := goSearch table.length fun i => strLe endDate ((table.getD i emptyHoliday).Date)
  listSlice table start stop

/-- Go `findHolidaysInYear`: same slicing between `"%04d-01-01"` and the
sentinel `"%04d-99-99"`. -/
def findHolidaysInYear (table : List Holiday) (year : ℕ) : List Holiday :=
  let startDate := fmtN year 1 1
  let endDate := fmtN year 99 99
  let start := goSearch table.length fun i => strLe startDate ((table.getD i emptyHoliday).Date)
  let stop := goSearch table.length fun i => strLe endDate ((table.getD i emptyHoliday).Date)
  listSlice table start stop

/-- Go struct `staticHolyday`: a month-day string `MM-DD` and a name. -/
structure StaticHolyday where
  Date : List ℕ
  Name : String
deriving DecidableEq

/-- Go struct `weekdayHolyday`: month, weekday (Sunday = 0), occurrence
index (0-based: `Index = 2` is the third occurrence) and a name. -/
structure WeekdayHolyday where
  Month : ℕ
  Weekday : ℕ
  Index : ℕ
  Name : String
deriving DecidableEq

/-- Go struct `annuallyHolidaysRule`: one generation of the recurring
holiday rules, effective from `BeginYear`. -/
structure AnnuallyHolidaysRule where
  BeginYear : ℕ
  StaticHolydays : List StaticHolyday
  WeekdayHolydays : List WeekdayHolyday
deriving DecidableEq

/-- Rule selection loop of `calcHolidaysInMonthWithoutInLieu`: iterate from
the END of the generation list and take the first generation with
`BeginYear >= year` — this comparison direction is exactly what the source
writes. -/
def searchRule (rules : List AnnuallyHolidaysRule) (year : ℕ) : Option AnnuallyHolidaysRule :=
  rules.reverse.find? fun r => decide (year ≤ r.BeginYear)

/-- Cumulative day counts before each month in a non-leap year, as the Go
`time` package tabulates them. -/
def daysBefore : ℕ → ℕ
  | 1 => 0
  | 2 => 31
  | 3 => 59
  | 4 => 90
  | 5 => 120
  | 6 => 151
  | 7 => 181
  | 8 => 212
  | 9 => 243
  | 10 => 273
  | 11 => 304
  | 12 => 334
  | _ => 365

/-- Gregorian leap-year rule, as Go `time.isLeap`. -/
def isLeap (y : ℕ) : Bool := decide (y % 4 = 0) && (decide (y % 100 ≠ 0) || decide (y % 400 = 0))

/-- Day count of the day just before day `d` of month `m`, year `y`, in
the proleptic Gregorian calendar with January 1 of year 1 as day 1 — the
day arithmetic of the Go `time` package. -/
def dayNumberBase (y m : ℕ) : ℕ :=
  365 * (y - 1) + (y - 1) / 4 - (y - 1) / 100 + (y - 1) / 400 + daysBefore m +
    (if 3 ≤ m ∧ isLeap y = true then 1 else 0)

/-- Absolute day count of a proleptic Gregorian date. -/
def dayNumber (y m d : ℕ) : ℕ := dayNumberBase y m + d

/-- Weekday (Sunday = 0 … Saturday = 6) of a date, as Go
`time.Date(y, m, d, ...).Weekday()` computes it; January 1 of year 1 is a
Monday. -/
def weekdayOf (y m d : ℕ) : ℕ := dayNumber y m d % 7

/-- Go: `day := int(d.Weekday - weekdayOfFirstDay); if day < 0 { day += 7 }`
for weekday values in `[0, 7)`. -/
def weekdayOffset (target w : ℕ) : ℕ := if target < w then target + 7 - w else target - w

/-- Candidate records accumulated by `calcHolidaysInMonthWithoutInLieu`
before the final sort, in exactly the append order of the source: fixed
dates of the selected generation, weekday rules, vernal equinox (March),
autumnal equinox (September), special holidays.  `vernalDay` and
`autumnalDay` stand for the float-driven `vernalEquinoxDay` and
`autumnalEquinoxDay` of the source. -/
def monthCandidates (rule : AnnuallyHolidaysRule) (specials : List Holiday)
    (vernalDay autumnalDay : ℕ → ℕ) (year month : ℕ) : List Holiday :=
  let yearPre := padN 4 year ++ [45]
  let monthPre := padN 2 month ++ [45]
  let statics := (rule.StaticHolydays.filter fun d => hasPre d.Date monthPre).map
      fun d => Holiday.mk (yearPre ++ d.Date) d.Name
  let w := weekdayOf year month 1
  let weekdays := (rule.WeekdayHolydays.filter fun d => d.Month == month).map
      fun d => Holiday.mk (fmtN year month (weekdayOffset d.Weekday w + d.Index * 7 + 1)) d.Name
  let vernal := if month = 3 then [(⟨fmtN year 3 (vernalDay year), "春分の日"⟩ : Holiday)] else []
  let autumnal := if month = 9 then [(⟨fmtN year 9 (autumnalDay year), "秋分の日"⟩ : Holiday)] else []
  let specialsHere := specials.filter fun d => hasPre d.Date (yearPre ++ monthPre)
  statics ++ weekdays ++ vernal ++ autumnal ++ specialsHere

/-- Candidates of the month under the rule the source selects for the
year; empty when `searchRule` selects none (the source returns `nil`). -/
def monthCandidatesOf (rules : List AnnuallyHolidaysRule) (specials : List Holiday)
    (vernalDay autumnalDay : ℕ → ℕ) (year month : ℕ) : List Holiday :=
  match searchRule rules year with
  | none => []
  | some rule => monthCandidates rule specials vernalDay autumnalDay year month

/-- Go `calcHolidaysInMonthWithoutInLieu`: the candidates, sorted by date
(`sort.Sort(withDate(holydays))`; sorting the empty `nil` case is a
no-op, matching the early return of the source). -/
def calcHolidaysInMonthWithoutInLieu (rules : List AnnuallyHolidaysRule)
    (specials : List Holiday) (vernalDay autumnalDay : ℕ → ℕ) (year month : ℕ) : List Holiday :=
  List.insertionSort dateLE (monthCandidatesOf rules specials vernalDay autumnalDay year month)

/-- Go `calcHolidaysInMonth`: the source body is only the comment
`add holidays in lieu` followed by a call to the function above. -/
def calcHolidaysInMonth (rules : List AnnuallyHolidaysRule) (specials : List Holiday)
    (vernalDay autumnalDay : ℕ → ℕ) (year month : ℕ) : List Holiday :=
  calcHolidaysInMonthWithoutInLieu rules specials vernalDay autumnalDay year month

/-- Go `calcHolidaysInYear`: append the twelve month results in order. -/
def calcHolidaysInYear (rules : List AnnuallyHolidaysRule) (specials : List Holiday)
    (vernalDay autumnalDay : ℕ → ℕ) (year : ℕ) : List Holiday :=
  (List.range' 1 12).flatMap fun month =>
    calcHolidaysInMonth rules specials vernalDay autumnalDay year month

/-- Scan loop of Go `vernalEquinoxDay`, one step per calendar day: if the
longitude at the current day is below 180 degrees, return the previous
day; otherwise advance; when the scan range is exhausted, return 0.  The
longitude at day `i` stands for the float computation
`sunLongitude(time2JulianYear(time.Date(year, March, i, 0, 0, 0, 0, jst)))`
of the source, which is not kernel-evaluable (IEEE-754 trigonometry), so
it is an explicit function argument here. -/
def vernalScan (longitude : ℕ → ℚ) : ℕ → ℕ → ℕ
  | 0, _ => 0
  | steps + 1, i => if longitude i < 180 then i - 1 else vernalScan longitude steps (i + 1)

/-- Go `vernalEquinoxDay`: scan March days 10 through 31. -/
def vernalEquinoxDay (longitude : ℕ → ℚ) : ℕ := vernalScan longitude 22 10

/-- Scan loop of Go `autumnalEquinoxDay`: return the previous day at the
first day whose longitude is at least 180 degrees; 0 when the range is
exhausted. -/
def autumnalScan (longitude : ℕ → ℚ) : ℕ → ℕ → ℕ
  | 0, _ => 0
  | steps + 1, i => if 180 ≤ longitude i then i - 1 else autumnalScan longitude steps (i + 1)

/-- Go `autumnalEquinoxDay`: scan September days 10 through 30. -/
def autumnalEquinoxDay (longitude : ℕ → ℚ) : ℕ := autumnalScan longitude 21 10

/-- Definition following the words of claim C3, not the source: return
`i - 1` for the first scanned day `i` of March 10–31 at which the
longitude is no longer below 180 degrees (that is, is at least 180), and 0
when there is none.  It reuses the scan loop whose trigger condition is
`180 ≤ longitude i`. -/
def vernalEquinoxDayPerClaim (longitude : ℕ → ℚ) : ℕ := autumnalScan longitude 22 10

/-- Longitude profile of a typical vernal-equinox March: the longitude
stays a little below 360 degrees until day 20 and wraps past 0 starting
with day 21. -/
def lexC3 : ℕ → ℚ := fun i => if i < 21 then 350 else 5

/-- Modelled from the spec: the value `annuallyHolidaysRules` lives in a
data file that is not under `src/`.  The spec describes an ordered list of
rule generations, the current one carrying fixed-date rules (January 1
「元日」, February 11 「建国記念の日」 among them) and weekday rules
(Respect-for-the-Aged Day, third Monday of September).  One generation
effective from 2020 is enough to settle the selection claims. -/
def gen2020 : AnnuallyHolidaysRule :=
  ⟨2020,
    [⟨mmdd 1 1, "元日"⟩, ⟨mmdd 2 11, "建国記念の日"⟩],
    [⟨9, 1, 2, "敬老の日"⟩]⟩

/-- Modelled from the spec: an earlier rule generation, effective from
1948 (the first holiday law), with one fixed-date rule. -/
def gen1948 : AnnuallyHolidaysRule :=
  ⟨1948, [⟨mmdd 11 23, "勤労感謝の日"⟩], []⟩

/-- Modelled rule data with two fixed-date rules sharing one date; the
repository rule data is not under `src/`, and the calculator itself never
enforces distinctness of the configured dates. -/
def dupRule : AnnuallyHolidaysRule :=
  ⟨2020,
    [⟨mmdd 2 11, "建国記念の日"⟩, ⟨mmdd 2 11, "建国記念の日の重複"⟩],
    []⟩

/-- Modelled from the spec: a generation carrying the weekday rule
「敬老の日」 (third Monday of September), effective from 2023 for the
concrete check below. -/
def genWitC6 : AnnuallyHolidaysRule :=
  ⟨2023, [], [⟨9, 1, 2, "敬老の日"⟩]⟩

/-- Modelled from the spec: three entries of the generated static holiday
table (the generated file is not under `src/`), taken from the concrete
scenarios in the spec (2021-08-08 山の日, 2023-01-01 元日 and the
recorded in-lieu day 2023-01-02), sorted ascending as the generator emits
them. -/
def tableWit : List Holiday :=
  [⟨fmtN 2021 8 8, "山の日"⟩,
   ⟨fmtN 2023 1 1, "元日"⟩,
   ⟨fmtN 2023 1 2, "休日"⟩]

/-- Well-formedness of a static table entry set: every date is the
`%04d-%02d-%02d` print of a real calendar-shaped field triple.  The
generator `internal/gen/gen.go` emits exactly such strings. -/
def WellFormedTable (t : List Holiday) : Prop :=
  ∀ e ∈ t, ∃ y m d : ℕ, y < 10000 ∧ 1 ≤ m ∧ m ≤ 12 ∧ 1 ≤ d ∧ d ≤ 31 ∧ e.Date = fmtN y m d

/-- Index of the first table entry at or after the start of month `m` of
year `y` (month 13 serves as the bound one past December). -/
def monthStartIdx (t : List Holiday) (y m : ℕ) : ℕ :=
  goSearch t.length fun i => strLe (fmtN y m 1) ((t.getD i emptyHoliday).Date)

theorem strLt_nil_right (x : List ℕ) : strLt x [] = false := by
  cases x <;> rfl

theorem strLt_nil_of_ne {x : List ℕ} (h : x ≠ []) : strLt [] x = true := by
  cases x with
  | nil => exact absurd rfl h
  | cons a as => rfl

theorem strLt_cons_iff {a b : ℕ} {as bs : List ℕ} :
    strLt (a :: as) (b :: bs) = true ↔ a < b ∨ (a = b ∧ strLt as bs = true) := by
  simp only [strLt]
  split_ifs with h1 h2
  · simp [h1]
  · simp [h1, h2]
  · simp [h1, h2]

theorem strLt_irrefl (x : List ℕ) : strLt x x = false := by
  induction x with
  | nil => rfl
  | cons a as ih =>
    simp only [strLt]
    rw [if_neg (lt_irrefl a)]
    simpa using ih

theorem strLt_trans : ∀ {x y z : List ℕ}, strLt x y = true → strLt y z = true →
    strLt x z = true := by
  intro x
  induction x with
  | nil =>
    intro y z h1 h2
    cases y with
    | nil => exact absurd h1 (by simp [strLt])
    | cons b bs =>
      cases z with
      | nil => exact absurd h2 (strLt_nil_right _ ▸ by simp [strLt_nil_right])
      | cons c cs => rfl
  | cons a as ih =>
    intro y z h1 h2
    cases y with
    | nil => exact absurd h1 (by simp [strLt_nil_right])
    | cons b bs =>
      cases z with
      | nil => exact absurd h2 (by simp [strLt_nil_right])
      | cons c cs =>
        rw [strLt_cons_iff] at h1 h2 ⊢
        rcases h1 with h1 | ⟨rfl, h1⟩
        · rcases h2 with h2 | ⟨rfl, h2⟩
          · exact Or.inl (lt_trans h1 h2)
          · exact Or.inl h1
        · rcases h2 with h2 | ⟨rfl, h2⟩
          · exact Or.inl h2
          · exact Or.inr ⟨rfl, ih h1 h2⟩

theorem strLt_connex : ∀ {x y : List ℕ}, strLt x y = false → strLt y x = false → x = y := by
  intro x
  induction x with
  | nil =>
    intro y h1 _
    cases y with
    | nil => rfl
    | cons b bs => exact absurd h1 (by simp [strLt])
  | cons a as ih =>
    intro y h1 h2
    cases y with
    | nil => exact absurd h2 (by simp [strLt])
    | cons b bs =>
      have h1x : ¬ (a < b ∨ (a = b ∧ strLt as bs = true)) := by
        rw [← strLt_cons_iff]; simp [h1]
      have h2x : ¬ (b < a ∨ (b = a ∧ strLt bs as = true)) := by
        rw [← strLt_cons_iff]; simp [h2]
      push_neg at h1x h2x
      have hab : a = b := by omega
      subst hab
      have e1 : strLt as bs = false := by
        have := h1x.2 rfl
        simp [this]
      have e2 : strLt bs as = false := by
        have := h2x.2 rfl
        simp [this]
      rw [ih e1 e2]

theorem strLt_asymm {x y : List ℕ} (h : strLt x y = true) : strLt y x = false := by
  cases hb : strLt y x with
  | false => rfl
  | true =>
    have := strLt_trans h hb
    rw [strLt_irrefl] at this
    exact absurd this (by simp)

theorem strLe_refl (x : List ℕ) : strLe x x = true := by
  simp [strLe, strLt_irrefl]

theorem strLe_total (x y : List ℕ) : strLe x y = true ∨ strLe y x = true := by
  by_cases h : strLt y x = true
  · exact Or.inr (by simp [strLe, strLt_asymm h])
  · exact Or.inl (by simp [strLe]; simpa using h)

theorem strLe_trans {x y z : List ℕ} (h1 : strLe x y = true) (h2 : strLe y z = true) :
    strLe x z = true := by
  simp only [strLe, Bool.not_eq_true'] at h1 h2 ⊢
  cases hzx : strLt z x with
  | false => rfl
  | true =>
    exfalso
    cases hyz : strLt y z with
    | true =>
      have := strLt_trans hyz hzx
      rw [h1] at this
      exact Bool.false_ne_true this
    | false =>
      have : y = z := strLt_connex hyz h2
      subst this
      rw [hzx] at h1
      simp at h1

theorem strLe_antisymm {x y : List ℕ} (h1 : strLe x y = true) (h2 : strLe y x = true) :
    x = y := by
  simp only [strLe, Bool.not_eq_true'] at h1 h2
  exact strLt_connex h2 h1

theorem strLt_of_le_of_ne {x y : List ℕ} (h1 : strLe x y = true) (h2 : x ≠ y) :
    strLt x y = true := by
  simp only [strLe, Bool.not_eq_true'] at h1
  cases hb : strLt x y with
  | true => rfl
  | false => exact absurd (strLt_connex hb h1) h2

instance : IsTotal Holiday dateLE := ⟨fun a b => strLe_total a.Date b.Date⟩

instance : IsTrans Holiday dateLE := ⟨fun _ _ _ h1 h2 => strLe_trans h1 h2⟩

theorem natDigitsAux_succ (fuel n : ℕ) :
    natDigitsAux (fuel + 1) n =
      if n < 10 then [48 + n] else natDigitsAux fuel (n / 10) ++ [48 + n % 10] := rfl

theorem natDigits_band1 {n : ℕ} (h : n < 10) : natDigits n = [48 + n] := by
  unfold natDigits
  cases n with
  | zero => rfl
  | succ k => rw [natDigitsAux_succ, if_pos h]

theorem natDigits_band2 {n : ℕ} (h1 : 10 ≤ n) (h2 : n < 100) :
    natDigits n = [48 + n / 10, 48 + n % 10] := by
  obtain ⟨j, rfl⟩ : ∃ j, n = j + 10 := ⟨n - 10, by omega⟩
  have e1 : j + 10 = (j + 9) + 1 := rfl
  unfold natDigits
  rw [e1, natDigitsAux_succ, if_neg (by omega)]
  have e2 : j + 9 = (j + 8) + 1 := rfl
  rw [e2, natDigitsAux_succ, if_pos (by omega)]
  rfl

theorem natDigits_band3 {n : ℕ} (h1 : 100 ≤ n) (h2 : n < 1000) :
    natDigits n = [48 + n / 100, 48 + n / 10 % 10, 48 + n % 10] := by
  obtain ⟨j, rfl⟩ : ∃ j, n = j + 100 := ⟨n - 100, by omega⟩
  have e1 : j + 100 = (j + 99) + 1 := rfl
  unfold natDigits
  rw [e1, natDigitsAux_succ, if_neg (by omega)]
  have e2 : j + 99 = (j + 98) + 1 := rfl
  rw [e2, natDigitsAux_succ, if_neg (by omega)]
  have e3 : j + 98 = (j + 97) + 1 := rfl
  rw [e3, natDigitsAux_succ, if_pos (by omega)]
  have e4 : (j + 100) / 10 / 10 = (j + 100) / 100 := by omega
  simp [e4]
  all_goals omega

theorem natDigits_band4 {n : ℕ} (h1 : 1000 ≤ n) (h2 : n < 10000) :
    natDigits n = [48 + n / 1000, 48 + n / 100 % 10, 48 + n / 10 % 10, 48 + n % 10] := by
  obtain ⟨j, rfl⟩ : ∃ j, n = j + 1000 := ⟨n - 1000, by omega⟩
  have e1 : j + 1000 = (j + 999) + 1 := rfl
  unfold natDigits
  rw [e1, natDigitsAux_succ, if_neg (by omega)]
  have e2 : j + 999 = (j + 998) + 1 := rfl
  rw [e2, natDigitsAux_succ, if_neg (by omega)]
  have e3 : j + 998 = (j + 997) + 1 := rfl
  rw [e3, natDigitsAux_succ, if_neg (by omega)]
  have e4 : j + 997 = (j + 996) + 1 := rfl
  rw [e4, natDigitsAux_succ, if_pos (by omega)]
  have e5 : (j + 1000) / 10 / 10 / 10 = (j + 1000) / 1000 := by omega
  have e6 : (j + 1000) / 10 / 10 % 10 = (j + 1000) / 100 % 10 := by omega
  have e7 : (j + 1000) / 10 / 10 = (j + 1000) / 100 := by omega
  simp [e5, e6, e7]
  all_goals omega

theorem padN_two {n : ℕ} (h : n < 100) : padN 2 n = [48 + n / 10, 48 + n % 10] := by
  by_cases h1 : n < 10
  · rw [padN, natDigits_band1 h1]
    have e1 : n / 10 = 0 := by omega
    have e2 : n % 10 = n := by omega
    simp [e1, e2, List.replicate]
  · rw [padN, natDigits_band2 (by omega) h]
    simp

theorem padN_four {n : ℕ} (h : n < 10000) :
    padN 4 n = [48 + n / 1000, 48 + n / 100 % 10, 48 + n / 10 % 10, 48 + n % 10] := by
  by_cases h1 : n < 10
  · rw [padN, natDigits_band1 h1]
    have e1 : n / 1000 = 0 := by omega
    have e2 : n / 100 % 10 = 0 := by omega
    have e3 : n / 10 % 10 = 0 := by omega
    have e4 : n % 10 = n := by omega
    simp [e1, e2, e3, e4, List.replicate]
  by_cases h2 : n < 100
  · rw [padN, natDigits_band2 (by omega) h2]
    have e1 : n / 1000 = 0 := by omega
    have e2 : n / 100 % 10 = 0 := by omega
    have e3 : n / 10 % 10 = n / 10 := by omega
    simp [e1, e2, e3, List.replicate]
  by_cases h3 : n < 1000
  · rw [padN, natDigits_band3 (by omega) h3]
    have e1 : n / 1000 = 0 := by omega
    have e2 : n / 100 % 10 = n / 100 := by omega
    simp [e1, e2, List.replicate]
  · rw [padN, natDigits_band4 (by omega) h]
    simp

theorem fmtN_ne_nil (y m d : ℕ) : fmtN y m d ≠ [] := by
  simp [fmtN]

theorem strLe_nil_iff (x : List ℕ) : strLe x [] = true ↔ x = [] := by
  constructor
  · intro h
    cases hx : x with
    | nil => rfl
    | cons a as =>
      rw [hx] at h
      simp [strLe, strLt_nil_of_ne] at h
  · intro h
    subst h
    exact strLe_refl []

theorem strLt_cons_same {c : ℕ} {r1 r2 : List ℕ} :
    strLt (c :: r1) (c :: r2) = strLt r1 r2 := by
  simp [strLt]

theorem strLt_block2 {a b : ℕ} (ha : a < 100) (hb : b < 100) (r1 r2 : List ℕ) :
    strLt ((48 + a / 10) :: (48 + a % 10) :: r1) ((48 + b / 10) :: (48 + b % 10) :: r2) =
      (if a < b then true else if a = b then strLt r1 r2 else false) := by
  simp only [strLt]
  split_ifs <;> first | rfl | (exfalso; omega)

theorem strLt_block4 {a b : ℕ} (ha : a < 10000) (hb : b < 10000) (r1 r2 : List ℕ) :
    strLt ((48 + a / 1000) :: (48 + a / 100 % 10) :: (48 + a / 10 % 10) :: (48 + a % 10) :: r1)
        ((48 + b / 1000) :: (48 + b / 100 % 10) :: (48 + b / 10 % 10) :: (48 + b % 10) :: r2) =
      (if a < b then true else if a = b then strLt r1 r2 else false) := by
  simp only [strLt]
  split_ifs <;> first | rfl | (exfalso; omega)

theorem strLt_fmtN {y1 m1 d1 y2 m2 d2 : ℕ}
    (hy1 : y1 < 10000) (hy2 : y2 < 10000) (hm1 : m1 < 100) (hm2 : m2 < 100)
    (hd1 : d1 < 100) (hd2 : d2 < 100) :
    (strLt (fmtN y1 m1 d1) (fmtN y2 m2 d2) = true) ↔
      (y1 < y2 ∨ (y1 = y2 ∧ (m1 < m2 ∨ (m1 = m2 ∧ d1 < d2)))) := by
  rw [fmtN, fmtN, padN_four hy1, padN_four hy2, padN_two hm1, padN_two hm2,
    padN_two hd1, padN_two hd2]
  simp only [List.cons_append, List.nil_append]
  rw [strLt_block4 hy1 hy2, strLt_cons_same, strLt_block2 hm1 hm2, strLt_cons_same,
    strLt_block2 hd1 hd2, strLt_nil_right]
  split_ifs <;> simp <;> omega

theorem strLe_fmtN {y1 m1 d1 y2 m2 d2 : ℕ}
    (hy1 : y1 < 10000) (hy2 : y2 < 10000) (hm1 : m1 < 100) (hm2 : m2 < 100)
    (hd1 : d1 < 100) (hd2 : d2 < 100) :
    (strLe (fmtN y1 m1 d1) (fmtN y2 m2 d2) = true) ↔
      (y1 < y2 ∨ (y1 = y2 ∧ (m1 < m2 ∨ (m1 = m2 ∧ d1 ≤ d2)))) := by
  have h := strLt_fmtN hy2 hy1 hm2 hm1 hd2 hd1
  unfold strLe
  cases hb : strLt (fmtN y2 m2 d2) (fmtN y1 m1 d1) with
  | false =>
    rw [hb] at h
    simp at h ⊢
    omega
  | true =>
    rw [hb] at h
    simp at h ⊢
    omega

theorem searchLoop_spec (f : ℕ → Bool) :
    ∀ fuel i j, j - i ≤ fuel → i ≤ j →
      (∀ k l, i ≤ k → k ≤ l → l < j → f k = true → f l = true) →
      i ≤ searchLoop f fuel i j ∧ searchLoop f fuel i j ≤ j ∧
        (∀ k, i ≤ k → k < searchLoop f fuel i j → f k = false) ∧
        (searchLoop f fuel i j < j → f (searchLoop f fuel i j) = true) := by
  intro fuel
  induction fuel with
  | zero =>
    intro i j hf0 hij hmono
    have hij2 : i = j := by omega
    subst hij2
    simp only [searchLoop]
    refine ⟨le_rfl, le_rfl, fun k h1 h2 => absurd (lt_of_le_of_lt h1 h2) (lt_irrefl i), fun h => absurd h (lt_irrefl i)⟩
  | succ fuel ih =>
    intro i j hf hij hmono
    by_cases hij2 : i < j
    · have hm1 : i ≤ (i + j) / 2 := by omega
      have hm2 : (i + j) / 2 < j := by omega
      simp only [searchLoop, if_pos hij2]
      by_cases hfm : f ((i + j) / 2) = true
      · rw [if_pos hfm]
        have hrec := ih i ((i + j) / 2) (by omega) hm1
          (fun k l h1 h2 h3 h => hmono k l h1 h2 (lt_trans h3 hm2) h)
        rcases hrec with ⟨h1, h2, h3, h4⟩
        refine ⟨h1, le_trans h2 (le_of_lt hm2), h3, fun _ => ?_⟩
        rcases lt_or_eq_of_le h2 with h5 | h5
        · exact h4 h5
        · rw [h5]; exact hfm
      · rw [if_neg hfm]
        have hfmf : f ((i + j) / 2) = false := by
          cases hx : f ((i + j) / 2) with
          | false => rfl
          | true => exact absurd hx hfm
        have hrec := ih ((i + j) / 2 + 1) j (by omega) (by omega)
          (fun k l h1 h2 h3 h => hmono k l (by omega) h2 h3 h)
        rcases hrec with ⟨h1, h2, h3, h4⟩
        refine ⟨by omega, h2, fun k hk1 hk2 => ?_, h4⟩
        by_cases hk3 : k ≤ (i + j) / 2
        · cases hfk : f k with
          | false => rfl
          | true =>
            exfalso
            have hcontra := hmono k ((i + j) / 2) hk1 hk3 hm2 hfk
            rw [hfmf] at hcontra
            exact Bool.false_ne_true hcontra
        · exact h3 k (by omega) hk2
    · have hij3 : i = j := by omega
      subst hij3
      simp only [searchLoop, if_neg hij2]
      refine ⟨le_rfl, le_rfl, fun k h1 h2 => absurd (lt_of_le_of_lt h1 h2) (lt_irrefl i), fun h => absurd h (lt_irrefl i)⟩

theorem goSearch_spec {n : ℕ} {f : ℕ → Bool}
    (hmono : ∀ k l, k ≤ l → l < n → f k = true → f l = true) :
    goSearch n f ≤ n ∧ (∀ k, k < goSearch n f → f k = false) ∧
      (goSearch n f < n → f (goSearch n f) = true) := by
  have h := searchLoop_spec f n 0 n (by omega) (by omega)
    (fun k l h1 h2 h3 h => hmono k l h2 h3 h)
  exact ⟨h.2.1, fun k hk => h.2.2.1 k (Nat.zero_le k) hk, h.2.2.2⟩

theorem search_index_unique {n a b : ℕ} {f : ℕ → Bool}
    (ha1 : a ≤ n) (ha2 : ∀ k, k < a → f k = false) (ha3 : a < n → f a = true)
    (hb1 : b ≤ n) (hb2 : ∀ k, k < b → f k = false) (hb3 : b < n → f b = true) : a = b := by
  by_contra hne
  rcases Nat.lt_or_ge a b with h | h
  · have h1 := ha3 (lt_of_lt_of_le h hb1)
    have h2 := hb2 a h
    rw [h2] at h1
    exact Bool.false_ne_true h1
  · rcases Nat.lt_or_ge b a with h4 | h4
    · have h1 := hb3 (lt_of_lt_of_le h4 ha1)
      have h2 := ha2 b h4
      rw [h2] at h1
      exact Bool.false_ne_true h1
    · exact hne (by omega)

theorem goSearch_le_goSearch {n : ℕ} {f g : ℕ → Bool}
    (hf : ∀ k l, k ≤ l → l < n → f k = true → f l = true)
    (hg : ∀ k l, k ≤ l → l < n → g k = true → g l = true)
    (himp : ∀ k, k < n → g k = true → f k = true) :
    goSearch n f ≤ goSearch n g := by
  rcases goSearch_spec hf with ⟨hf1, hf2, hf3⟩
  rcases goSearch_spec hg with ⟨hg1, hg2, hg3⟩
  by_contra hcon
  push_neg at hcon
  have h1 : goSearch n g < n := lt_of_lt_of_le hcon hf1
  have h2 : g (goSearch n g) = true := hg3 h1
  have h3 : f (goSearch n g) = true := himp _ h1 h2
  have h4 : f (goSearch n g) = false := hf2 _ hcon
  rw [h4] at h3
  exact Bool.false_ne_true h3

theorem tablePred_mono {t : List Holiday} (hs : List.Sorted dateLE t) (key : List ℕ) :
    ∀ k l, k ≤ l → l < t.length →
      strLe key ((t.getD k emptyHoliday).Date) = true →
      strLe key ((t.getD l emptyHoliday).Date) = true := by
  intro k l hkl hl hk
  have hk2 : k < t.length := by omega
  rw [List.getD_eq_getElem t emptyHoliday hl]
  rw [List.getD_eq_getElem t emptyHoliday hk2] at hk
  rcases eq_or_lt_of_le hkl with rfl | hlt
  · exact hk
  · have hrel : dateLE t[k] t[l] := by
      have hp := List.pairwise_iff_getElem.mp hs
      exact hp k l hk2 hl hlt
    exact strLe_trans hk hrel

theorem strLe_fmt_nil (y m d : ℕ) : strLe (fmtN y m d) [] = false := by
  cases hz : strLe (fmtN y m d) [] with
  | false => rfl
  | true => exact absurd ((strLe_nil_iff _).mp hz) (fmtN_ne_nil y m d)

theorem searchKey_congr {t : List Holiday} (hwf : WellFormedTable t) {y a b c d : ℕ}
    (hy : y < 10000) (ha : a < 100) (hb : b < 100) (hc : c < 100) (hd : d < 100)
    (h : ∀ y2 m2 d2 : ℕ, y2 < 10000 → 1 ≤ m2 → m2 ≤ 12 → 1 ≤ d2 → d2 ≤ 31 →
        ((y < y2 ∨ (y = y2 ∧ (a < m2 ∨ (a = m2 ∧ b ≤ d2)))) ↔
          (y < y2 ∨ (y = y2 ∧ (c < m2 ∨ (c = m2 ∧ d ≤ d2)))))) :
    (fun i => strLe (fmtN y a b) ((t.getD i emptyHoliday).Date)) =
      (fun i => strLe (fmtN y c d) ((t.getD i emptyHoliday).Date)) := by
  funext i
  by_cases hi : i < t.length
  · have he : t.getD i emptyHoliday ∈ t := by
      rw [List.getD_eq_getElem t emptyHoliday hi]
      exact List.getElem_mem hi
    obtain ⟨y2, m2, d2, hy2, hm21, hm22, hd21, hd22, hdate⟩ := hwf _ he
    rw [hdate]
    have hm2x : m2 < 100 := by omega
    have hd2x : d2 < 100 := by omega
    have h1 := strLe_fmtN hy hy2 ha hm2x hb hd2x
    have h2 := strLe_fmtN hy hy2 hc hm2x hd hd2x
    have h3 := h y2 m2 d2 hy2 hm21 hm22 hd21 hd22
    cases hx : strLe (fmtN y a b) (fmtN y2 m2 d2) with
    | true =>
      have h4 : strLe (fmtN y c d) (fmtN y2 m2 d2) = true := h2.mpr (h3.mp (h1.mp hx))
      rw [h4]
    | false =>
      have h4 : strLe (fmtN y c d) (fmtN y2 m2 d2) = false := by
        cases hz : strLe (fmtN y c d) (fmtN y2 m2 d2) with
        | false => rfl
        | true =>
          have := h1.mpr (h3.mpr (h2.mp hz))
          rw [hx] at this
          exact absurd this Bool.false_ne_true
      rw [h4]
  · have hnil : t.getD i emptyHoliday = emptyHoliday := by
      apply List.getD_eq_default
      omega
    rw [hnil]
    show strLe (fmtN y a b) [] = strLe (fmtN y c d) []
    rw [strLe_fmt_nil, strLe_fmt_nil]

theorem slice_glue {l : List Holiday} {a b c : ℕ} (hab : a ≤ b) (hbc : b ≤ c) :
    listSlice l a b ++ listSlice l b c = listSlice l a c := by
  unfold listSlice
  have e1 : c - a = (b - a) + (c - b) := by omega
  rw [e1, List.take_add]
  congr 1
  rw [List.drop_drop]
  have e2 : a + (b - a) = b := by omega
  rw [e2]

theorem monthStartIdx_le {t : List Holiday} (hs : List.Sorted dateLE t) {y m1 m2 : ℕ}
    (hy : y < 10000) (hm1 : m1 < 100) (hm2 : m2 < 100) (hm : m1 ≤ m2) :
    monthStartIdx t y m1 ≤ monthStartIdx t y m2 := by
  unfold monthStartIdx
  apply goSearch_le_goSearch (tablePred_mono hs _) (tablePred_mono hs _)
  intro k _ hg
  have hkey : strLe (fmtN y m1 1) (fmtN y m2 1) = true :=
    (strLe_fmtN hy hy hm1 hm2 (by omega) (by omega)).mpr (by omega)
  exact strLe_trans hkey hg

theorem findHolidaysInMonth_eq_slice {t : List Holiday} (hwf : WellFormedTable t)
    {y m : ℕ} (hy : y < 10000) (hm1 : 1 ≤ m) (hm2 : m ≤ 12) :
    findHolidaysInMonth t y m = listSlice t (monthStartIdx t y m) (monthStartIdx t y (m + 1)) := by
  simp only [findHolidaysInMonth, monthStartIdx]
  congr 1
  have hcongr := searchKey_congr hwf hy (show m < 100 by omega) (show (99 : ℕ) < 100 by omega)
    (show m + 1 < 100 by omega) (show (1 : ℕ) < 100 by omega)
    (fun y2 m2 d2 h1 h2 h3 h4 h5 => by omega)
  rw [hcongr]

theorem tile_months {t : List Holiday} (hs : List.Sorted dateLE t) (hwf : WellFormedTable t)
    {y : ℕ} (hy : y < 10000) :
    ∀ k a, 1 ≤ a → a + k ≤ 13 →
      ((List.range' a k).flatMap fun m => findHolidaysInMonth t y m) =
        listSlice t (monthStartIdx t y a) (monthStartIdx t y (a + k)) := by
  intro k
  induction k with
  | zero =>
    intro a h1 h2
    simp [listSlice]
  | succ k ih =>
    intro a h1 h2
    rw [List.range'_succ]
    rw [List.flatMap_cons]
    rw [findHolidaysInMonth_eq_slice hwf hy h1 (by omega)]
    rw [ih (a + 1) (by omega) (by omega)]
    have e3 : a + (k + 1) = (a + 1) + k := by omega
    rw [e3]
    exact slice_glue (monthStartIdx_le hs hy (by omega) (by omega) (by omega))
      (monthStartIdx_le hs hy (by omega) (by omega) (by omega))

theorem findHolidaysInYear_eq_slice {t : List Holiday} (hwf : WellFormedTable t)
    {y : ℕ} (hy : y < 10000) :
    findHolidaysInYear t y = listSlice t (monthStartIdx t y 1) (monthStartIdx t y 13) := by
  simp only [findHolidaysInYear, monthStartIdx]
  congr 1
  have hcongr := searchKey_congr hwf hy (show (99 : ℕ) < 100 by omega)
    (show (99 : ℕ) < 100 by omega) (show (13 : ℕ) < 100 by omega) (show (1 : ℕ) < 100 by omega)
    (fun y2 m2 d2 h1 h2 h3 h4 h5 => by omega)
  rw [hcongr]

/-- C4: for every date, `findHoliday` returns `(record, true)` exactly when
the sorted static table holds a record whose date string is the formatted
query date (so in particular for every date whose year lies in the covered
range); the returned record then is such a table record, and otherwise the
result is `(emptyHoliday, false)` — no false positives and no false
negatives with respect to the table. -/
theorem findHoliday_agrees_with_table (t : List Holiday) (hs : List.Sorted dateLE t)
    (y m d : ℤ) :
    ((findHoliday t y m d).2 = true ↔ ∃ e ∈ t, e.Date = fmtI y m d) ∧
      ((findHoliday t y m d).2 = true →
        (findHoliday t y m d).1 ∈ t ∧ (findHoliday t y m d).1.Date = fmtI y m d) ∧
      ((findHoliday t y m d).2 = false → findHoliday t y m d = (emptyHoliday, false)) := by
  simp only [findHoliday]
  rcases goSearch_spec (n := t.length)
      (f := fun i => strLe (fmtI y m d) ((t.getD i emptyHoliday).Date))
      (tablePred_mono hs (fmtI y m d)) with ⟨hle, hlow, hhit⟩
  by_cases hcond : goSearch t.length
      (fun i => strLe (fmtI y m d) ((t.getD i emptyHoliday).Date)) < t.length ∧
      (t.getD (goSearch t.length
        (fun i => strLe (fmtI y m d) ((t.getD i emptyHoliday).Date))) emptyHoliday).Date =
        fmtI y m d
  · rw [if_pos hcond]
    have hmem : t.getD (goSearch t.length
        (fun i => strLe (fmtI y m d) ((t.getD i emptyHoliday).Date))) emptyHoliday ∈ t := by
      rw [List.getD_eq_getElem t emptyHoliday hcond.1]
      exact List.getElem_mem hcond.1
    refine ⟨?_, ?_, ?_⟩
    · constructor
      · intro _
        exact ⟨_, hmem, hcond.2⟩
      · intro _
        rfl
    · intro _
      exact ⟨hmem, hcond.2⟩
    · intro hcontra
      simp at hcontra
  · rw [if_neg hcond]
    refine ⟨?_, ?_, ?_⟩
    · constructor
      · intro hcontra
        simp at hcontra
      · rintro ⟨e, he, hedate⟩
        exfalso
        obtain ⟨j, hj, rfl⟩ := List.mem_iff_getElem.mp he
        have hfj : strLe (fmtI y m d) ((t.getD j emptyHoliday).Date) = true := by
          rw [List.getD_eq_getElem t emptyHoliday hj, hedate]
          exact strLe_refl _
        have hij : goSearch t.length
            (fun i => strLe (fmtI y m d) ((t.getD i emptyHoliday).Date)) ≤ j := by
          by_contra hcon
          push_neg at hcon
          have := hlow j hcon
          rw [hfj] at this
          simp at this
        have hidxlt : goSearch t.length
            (fun i => strLe (fmtI y m d) ((t.getD i emptyHoliday).Date)) < t.length := by
          omega
        have hfidx := hhit hidxlt
        have hup : strLe ((t.getD (goSearch t.length
            (fun i => strLe (fmtI y m d) ((t.getD i emptyHoliday).Date))) emptyHoliday).Date)
            (fmtI y m d) = true := by
          rcases eq_or_lt_of_le hij with heq | hlt2
          · rw [heq, List.getD_eq_getElem t emptyHoliday hj, hedate]
            exact strLe_refl _
          · have hp := List.pairwise_iff_getElem.mp hs _ j hidxlt hj hlt2
            unfold dateLE at hp
            rw [hedate] at hp
            rw [List.getD_eq_getElem t emptyHoliday hidxlt]
            exact hp
        have heqd := strLe_antisymm hfidx hup
        exact hcond ⟨hidxlt, heqd.symm⟩
    · intro hcontra
      simp at hcontra
    · intro _
      rfl

theorem tableWit_wellFormed : WellFormedTable tableWit := by
  intro e he
  simp only [tableWit, List.mem_cons, List.not_mem_nil, or_false] at he
  rcases he with rfl | rfl | rfl
  · exact ⟨2021, 8, 8, by norm_num, by norm_num, by norm_num, by norm_num, by norm_num, by decide⟩
  · exact ⟨2023, 1, 1, by norm_num, by norm_num, by norm_num, by norm_num, by norm_num, by decide⟩
  · exact ⟨2023, 1, 2, by norm_num, by norm_num, by norm_num, by norm_num, by norm_num, by decide⟩

/-- Witness for C4: the sorted sample table, queried at 2023-01-01. -/
theorem findHoliday_agrees_with_table_witness :
    ((findHoliday tableWit 2023 1 1).2 = true ↔ ∃ e ∈ tableWit, e.Date = fmtI 2023 1 1) ∧
      ((findHoliday tableWit 2023 1 1).2 = true →
        (findHoliday tableWit 2023 1 1).1 ∈ tableWit ∧
          (findHoliday tableWit 2023 1 1).1.Date = fmtI 2023 1 1) ∧
      ((findHoliday tableWit 2023 1 1).2 = false →
        findHoliday tableWit 2023 1 1 = (emptyHoliday, false)) :=
  findHoliday_agrees_with_table tableWit (by decide) 2023 1 1

/-- C10: `findHoliday` accepts every integer year, month and day without
any calendar validation (the embedding is a total function by
construction, mirroring that the Go code only formats and searches), and
whenever the zero-padded formatted date string matches no entry of the
static table it returns the empty record and `false`. -/
theorem findHoliday_no_validation (t : List Holiday) (y m d : ℤ)
    (h : ∀ e ∈ t, e.Date ≠ fmtI y m d) :
    findHoliday t y m d = (emptyHoliday, false) := by
  simp only [findHoliday]
  split
  next hcond =>
    exfalso
    have hmem : t.getD (goSearch t.length
        (fun i => strLe (fmtI y m d) ((t.getD i emptyHoliday).Date))) emptyHoliday ∈ t := by
      rw [List.getD_eq_getElem t emptyHoliday hcond.1]
      exact List.getElem_mem hcond.1
    exact h _ hmem hcond.2
  next => rfl

/-- Witness for C10: calendar-invalid field combinations (month 13, day 0,
day 32) and a negative year all yield `(emptyHoliday, false)` on the
sample table. -/
theorem findHoliday_no_validation_witness :
    findHoliday tableWit 2023 13 0 = (emptyHoliday, false) ∧
      findHoliday tableWit 2023 1 32 = (emptyHoliday, false) ∧
      findHoliday tableWit (-5) 1 1 = (emptyHoliday, false) :=
  ⟨findHoliday_no_validation tableWit 2023 13 0 (by decide),
   findHoliday_no_validation tableWit 2023 1 32 (by decide),
   findHoliday_no_validation tableWit (-5) 1 1 (by decide)⟩

/-- C7: concatenating the twelve month enumerations of a year, January
through December in order, yields exactly the year enumeration — same
elements, same order, no omissions, no duplicates, because the two sides
are equal as lists.  This holds for the static-table lookups (on a sorted,
well-formed table, for four-digit years) and for the calculator, whose
year function is the month concatenation by construction. -/
theorem months_concat_eq_year (t : List Holiday) (hs : List.Sorted dateLE t)
    (hwf : WellFormedTable t) (rules : List AnnuallyHolidaysRule) (specials : List Holiday)
    (vernalDay autumnalDay : ℕ → ℕ) (y : ℕ) (hy : y < 10000) :
    ((List.range' 1 12).flatMap fun m => findHolidaysInMonth t y m) = findHolidaysInYear t y ∧
      ((List.range' 1 12).flatMap fun m =>
          calcHolidaysInMonth rules specials vernalDay autumnalDay y m) =
        calcHolidaysInYear rules specials vernalDay autumnalDay y := by
  constructor
  · rw [tile_months hs hwf hy 12 1 (by omega) (by omega)]
    rw [findHolidaysInYear_eq_slice hwf hy]
  · rfl

/-- Witness for C7: the sample static table and a one-generation rule set
at year 2023. -/
theorem months_concat_eq_year_witness :
    ((List.range' 1 12).flatMap fun m => findHolidaysInMonth tableWit 2023 m) =
        findHolidaysInYear tableWit 2023 ∧
      ((List.range' 1 12).flatMap fun m =>
          calcHolidaysInMonth [gen2020] [] (fun _ => 20) (fun _ => 23) 2023 m) =
        calcHolidaysInYear [gen2020] [] (fun _ => 20) (fun _ => 23) 2023 :=
  months_concat_eq_year tableWit (by decide) tableWit_wellFormed [gen2020] []
    (fun _ => 20) (fun _ => 23) 2023 (by norm_num)

/-- C8: the in-lieu (observance-shift) step is an identity transformation:
`calcHolidaysInMonth` returns exactly the list computed by
`calcHolidaysInMonthWithoutInLieu`; the source body holds only the comment
about adding holidays in lieu and performs no substitution. -/
theorem calcMonth_inLieu_identity (rules : List AnnuallyHolidaysRule) (specials : List Holiday)
    (vernalDay autumnalDay : ℕ → ℕ) (year month : ℕ) :
    calcHolidaysInMonth rules specials vernalDay autumnalDay year month =
      calcHolidaysInMonthWithoutInLieu rules specials vernalDay autumnalDay year month := rfl

/-- C1 (code bug): the source rule selection compares `BeginYear >= year`
while scanning from the end of the generation list.  With the
spec-modelled generations: year 2021, inside the validity of the 2020
generation, selects NO generation and the February 2021 recurring set is
empty, although the claim selects the 2020 generation; year 1900, which
precedes every generation, selects the 2020 generation instead of none;
and with two generations, year 1950 selects the 2020 generation although
the latest generation with `effectiveFromYear ≤ 1950` is the 1948 one. -/
theorem searchRule_wrong_direction :
    searchRule [gen2020] 2021 = none ∧
      calcHolidaysInMonthWithoutInLieu [gen2020] [] (fun _ => 20) (fun _ => 22) 2021 2 = [] ∧
      searchRule [gen2020] 1900 = some gen2020 ∧
      searchRule [gen1948, gen2020] 1950 = some gen2020 := by
  refine ⟨by decide, by decide, by decide, by decide⟩

/-- C5 counterexample: with rule data holding two fixed-date rules for
February 11, the February 2020 output of the calculator contains two
records with the same date, so the output is not strictly ascending and
each date is not unique — the calculator never enforces uniqueness. -/
theorem calcMonth_duplicate_dates :
    ¬ ((calcHolidaysInMonth [dupRule] [] (fun _ => 20) (fun _ => 22) 2020 2).map
        (fun h => h.Date)).Nodup := by decide

/-- C5 amended: the month calculator always returns a list sorted
ascending by date (non-strictly), and whenever the generated candidate
records of the month carry pairwise-distinct dates — a property of the
configured data that the code itself does not enforce — the returned list
is strictly ascending by date. -/
theorem calcMonth_sorted_and_strict (rules : List AnnuallyHolidaysRule) (specials : List Holiday)
    (vernalDay autumnalDay : ℕ → ℕ) (year month : ℕ) :
    List.Sorted dateLE (calcHolidaysInMonth rules specials vernalDay autumnalDay year month) ∧
      (((monthCandidatesOf rules specials vernalDay autumnalDay year month).map
          (fun h => h.Date)).Nodup →
        List.Sorted dateLt (calcHolidaysInMonth rules specials vernalDay autumnalDay year month)) := by
  have hsort : List.Sorted dateLE
      (calcHolidaysInMonth rules specials vernalDay autumnalDay year month) :=
    List.sorted_insertionSort dateLE _
  refine ⟨hsort, fun hnd => ?_⟩
  have hperm : (calcHolidaysInMonth rules specials vernalDay autumnalDay year month).Perm
      (monthCandidatesOf rules specials vernalDay autumnalDay year month) :=
    List.perm_insertionSort dateLE _
  have hnd2 : ((calcHolidaysInMonth rules specials vernalDay autumnalDay year month).map
      (fun h => h.Date)).Nodup :=
    ((hperm.map (fun h => h.Date)).nodup_iff).mpr hnd
  have hne : List.Pairwise (fun a b : Holiday => a.Date ≠ b.Date)
      (calcHolidaysInMonth rules specials vernalDay autumnalDay year month) :=
    List.pairwise_map.mp hnd2
  exact (hsort.and hne).imp fun h => strLt_of_le_of_ne h.1 h.2

/-- Witness for the amended C5: one generation and February 2020; the
output is sorted, and since the candidate dates are pairwise distinct it
is strictly ascending. -/
theorem calcMonth_sorted_and_strict_witness :
    List.Sorted dateLE (calcHolidaysInMonth [gen2020] [] (fun _ => 20) (fun _ => 22) 2020 2) ∧
      List.Sorted dateLt (calcHolidaysInMonth [gen2020] [] (fun _ => 20) (fun _ => 22) 2020 2) :=
  ⟨(calcMonth_sorted_and_strict [gen2020] [] (fun _ => 20) (fun _ => 22) 2020 2).1,
   (calcMonth_sorted_and_strict [gen2020] [] (fun _ => 20) (fun _ => 22) 2020 2).2 (by decide)⟩

/-- C6: every weekday rule of the selected generation whose month matches
is emitted on day `1 + ((targetWeekday - weekdayOfFirstDay + 7) mod 7) +
7 × ordinalIndex`, and the weekday of the emitted date always equals the
configured weekday of the rule. -/
theorem weekdayRule_day_formula (rules : List AnnuallyHolidaysRule) (specials : List Holiday)
    (vernalDay autumnalDay : ℕ → ℕ) (year month : ℕ) (rule : AnnuallyHolidaysRule)
    (r : WeekdayHolyday) (hr : searchRule rules year = some rule)
    (hmem : r ∈ rule.WeekdayHolydays) (hmon : r.Month = month) (hwd : r.Weekday < 7) :
    (Holiday.mk (fmtN year month
        (1 + ((r.Weekday + 7 - weekdayOf year month 1) % 7) + 7 * r.Index)) r.Name) ∈
        calcHolidaysInMonthWithoutInLieu rules specials vernalDay autumnalDay year month ∧
      weekdayOf year month
        (1 + ((r.Weekday + 7 - weekdayOf year month 1) % 7) + 7 * r.Index) = r.Weekday := by
  have hw7 : weekdayOf year month 1 < 7 := Nat.mod_lt _ (by norm_num)
  have hdayeq : weekdayOffset r.Weekday (weekdayOf year month 1) + r.Index * 7 + 1 =
      1 + ((r.Weekday + 7 - weekdayOf year month 1) % 7) + 7 * r.Index := by
    unfold weekdayOffset
    split_ifs with h <;> omega
  constructor
  · have hperm := List.perm_insertionSort dateLE
      (monthCandidatesOf rules specials vernalDay autumnalDay year month)
    show _ ∈ List.insertionSort dateLE
      (monthCandidatesOf rules specials vernalDay autumnalDay year month)
    rw [List.Perm.mem_iff hperm]
    simp only [monthCandidatesOf, hr]
    have hinw : (Holiday.mk (fmtN year month
        (weekdayOffset r.Weekday (weekdayOf year month 1) + r.Index * 7 + 1)) r.Name) ∈
        (rule.WeekdayHolydays.filter fun d => d.Month == month).map
          (fun d => Holiday.mk (fmtN year month
            (weekdayOffset d.Weekday (weekdayOf year month 1) + d.Index * 7 + 1)) d.Name) :=
      List.mem_map_of_mem _ (List.mem_filter.mpr ⟨hmem, by simp [hmon]⟩)
    rw [hdayeq] at hinw
    unfold monthCandidates
    simp only [List.mem_append]
    left
    left
    left
    right
    exact hinw
  · unfold weekdayOf dayNumber
    omega

/-- Witness for C6: Respect-for-the-Aged Day (third Monday of September)
in September 2023: the formula puts it on September 18 and its weekday is
Monday (1). -/
theorem weekdayRule_day_formula_witness :
    (⟨fmtN 2023 9 (1 + ((1 + 7 - weekdayOf 2023 9 1) % 7) + 7 * 2), "敬老の日"⟩ : Holiday) ∈
        calcHolidaysInMonthWithoutInLieu [genWitC6] [] (fun _ => 20) (fun _ => 22) 2023 9 ∧
      weekdayOf 2023 9 (1 + ((1 + 7 - weekdayOf 2023 9 1) % 7) + 7 * 2) = 1 :=
  weekdayRule_day_formula [genWitC6] [] (fun _ => 20) (fun _ => 22) 2023 9 genWitC6
    ⟨9, 1, 2, "敬老の日"⟩ (by decide) (by decide) rfl (by decide)

theorem vernalScan_exhaust (l : ℕ → ℚ) :
    ∀ steps i, (∀ j, i ≤ j → j < i + steps → ¬ l j < 180) → vernalScan l steps i = 0 := by
  intro steps
  induction steps with
  | zero => intro i _; rfl
  | succ s ih =>
    intro i h
    simp only [vernalScan]
    rw [if_neg (h i le_rfl (by omega))]
    exact ih (i + 1) fun j hj1 hj2 => h j (by omega) (by omega)

theorem autumnalScan_exhaust (l : ℕ → ℚ) :
    ∀ steps i, (∀ j, i ≤ j → j < i + steps → l j < 180) → autumnalScan l steps i = 0 := by
  intro steps
  induction steps with
  | zero => intro i _; rfl
  | succ s ih =>
    intro i h
    simp only [autumnalScan]
    rw [if_neg (not_le.mpr (h i le_rfl (by omega)))]
    exact ih (i + 1) fun j hj1 hj2 => h j (by omega) (by omega)

theorem vernalScan_found (l : ℕ → ℚ) :
    ∀ steps i k, i ≤ k → k < i + steps → l k < 180 →
      (∀ j, i ≤ j → j < k → ¬ l j < 180) → vernalScan l steps i = k - 1 := by
  intro steps
  induction steps with
  | zero =>
    intro i k h1 h2 _ _
    exfalso
    omega
  | succ s ih =>
    intro i k h1 h2 hk hprev
    simp only [vernalScan]
    rcases eq_or_lt_of_le h1 with rfl | hlt
    · rw [if_pos hk]
    · rw [if_neg (hprev i le_rfl hlt)]
      exact ih (i + 1) k (by omega) (by omega) hk fun j hj1 hj2 => hprev j (by omega) hj2

/-- C2 (code bug): when either equinox scan exhausts its whole day range
without the trigger condition holding, the source returns 0 — an `int` in
the same channel as valid day values, later formatted blindly into a date
string — and no distinct not-found outcome exists. -/
theorem equinox_exhaust_returns_zero (l1 l2 : ℕ → ℚ)
    (h1 : ∀ j, 10 ≤ j → j ≤ 31 → ¬ l1 j < 180)
    (h2 : ∀ j, 10 ≤ j → j ≤ 30 → l2 j < 180) :
    vernalEquinoxDay l1 = 0 ∧ autumnalEquinoxDay l2 = 0 := by
  constructor
  · exact vernalScan_exhaust l1 22 10 fun j hj1 hj2 => h1 j hj1 (by omega)
  · exact autumnalScan_exhaust l2 21 10 fun j hj1 hj2 => h2 j hj1 (by omega)

/-- Witness for C2: a longitude profile that never drops below 180 (no
vernal crossing) and one that never reaches 180 (no autumnal crossing)
both make the scans return 0. -/
theorem equinox_exhaust_returns_zero_witness :
    vernalEquinoxDay (fun _ => 200) = 0 ∧ autumnalEquinoxDay (fun _ => 0) = 0 :=
  equinox_exhaust_returns_zero (fun _ => 200) (fun _ => 0)
    (fun j _ _ => by norm_num) (fun j _ _ => by norm_num)

/-- C3 counterexample: on the typical vernal profile `lexC3` (at least 180
degrees through day 20, below 180 from day 21 on) the source scan returns
20, while the formula asserted by the claim — `i - 1` for the first day
`i` at which the longitude is no longer below 180 degrees — yields 9. -/
theorem vernal_trigger_direction_counterexample :
    vernalEquinoxDay lexC3 = 20 ∧ vernalEquinoxDayPerClaim lexC3 = 9 ∧
      vernalEquinoxDay lexC3 ≠ vernalEquinoxDayPerClaim lexC3 := by decide

/-- C3 amended: the vernal scan evaluates the longitude day by day over
March 10–31 and returns `k - 1` for the first day `k` at which the
longitude IS below 180 degrees (the longitude having wrapped past 0/360) —
the trigger of the source is `longitude < 180`, not `≥ 180`. -/
theorem vernalEquinoxDay_first_below (l : ℕ → ℚ) (k : ℕ) (h1 : 10 ≤ k) (h2 : k ≤ 31)
    (hk : l k < 180) (hprev : ∀ j, 10 ≤ j → j < k → ¬ l j < 180) :
    vernalEquinoxDay l = k - 1 :=
  vernalScan_found l 22 10 k h1 (by omega) hk hprev

/-- Witness for the amended C3: the first below-180 day of `lexC3` is day
21, and the scan returns 20. -/
theorem vernalEquinoxDay_first_below_witness : vernalEquinoxDay lexC3 = 20 :=
  vernalEquinoxDay_first_below lexC3 21 (by norm_num) (by norm_num) (by decide)
    (fun j hj1 hj2 => by
      simp only [lexC3]
      rw [if_pos hj2]
      decide)
